import Mathlib

/-!
Verification of the shli command-line library: the escape-aware tokenizer
(parse.rs / split.rs), the command-tree completion resolver (completion.rs)
and the interactive prompt state machine (prompt.rs), shallowly embedded.
Strings are modelled as `List Char`; a Rust panic is modelled as `none`.
-/

namespace Shli

/-- State machine for processing escaping within command line strings
(`EscapingState` in parse.rs; split.rs holds an identical copy). -/
structure EscapingState where
  single_quote : Bool
  double_quote : Bool
  backslash : Bool
deriving DecidableEq, Repr

namespace EscapingState

/-- `EscapingState::new` — all fields start false. -/
def new : EscapingState := ⟨false, false, false⟩

/-- Would a following whitespace be escaped (taken literally)? -/
def whitespace_escaped (s : EscapingState) : Bool :=
  s.single_quote || s.double_quote || s.backslash

/-- Would a following `"` be escaped? -/
def doublequote_escaped (s : EscapingState) : Bool :=
  s.single_quote || s.backslash

/-- Would a following `'` be escaped? -/
def singlequote_escaped (s : EscapingState) : Bool :=
  s.double_quote || s.backslash

/-- Would a following backslash be escaped? -/
def backslash_escaped (s : EscapingState) : Bool :=
  s.double_quote || s.backslash

/-- `EscapingState::step` — process one character.  The quote toggles run
first; the backslash flag is then cleared if it was set, else armed on a
backslash character. -/
def step (s : EscapingState) (ch : Char) : EscapingState :=
  let s1 :=
    if ch = '"' then
      if !s.doublequote_escaped then { s with double_quote := !s.double_quote } else s
    else if ch = '\'' then
      if !s.singlequote_escaped then { s with single_quote := !s.single_quote } else s
    else s
  if s1.backslash then { s1 with backslash := false }
  else if ch = '\\' then { s1 with backslash := true }
  else s1

/-- `EscapingState::process` — step over every character of the line. -/
def process (line : List Char) : EscapingState := line.foldl step new

end EscapingState

/-- Inner loop of `split`: current state, accumulated word, produced parts,
remaining input. -/
def splitAux : EscapingState → List Char → List (List Char) → List Char → List (List Char)
  | _, act, parts, [] => if act = [] then parts else parts ++ [act]
  | state, act, parts, ch :: rest =>
    if ch.isWhitespace && !state.whitespace_escaped then
      splitAux (state.step ch) [] (if act = [] then parts else parts ++ [act]) rest
    else
      let act' :=
        if ch = '"' then (if state.doublequote_escaped then act ++ [ch] else act)
        else if ch = '\'' then (if state.singlequote_escaped then act ++ [ch] else act)
        else if ch = '\\' then (if state.backslash_escaped then act ++ [ch] else act)
        else act ++ [ch]
      splitAux (state.step ch) act' parts rest

/-- `split` (parse.rs / split.rs): split a command line into components,
respecting quote and backslash escaping. -/
def split (cmdline : List Char) : List (List Char) :=
  splitAux EscapingState.new [] [] cmdline

/-- `ends_with_whitespace` (split.rs). -/
def ends_with_whitespace (text : List Char) : Bool :=
  match text.getLast? with
  | some ch => ch.isWhitespace
  | none => false

theorem split_test_whitespace :
    split ("A B C").toList = [("A").toList, ("B").toList, ("C").toList] := by decide

theorem split_test_dquote :
    split ("\"A B C\"").toList = [("A B C").toList] := by decide

theorem split_test_backslash :
    split ("A\\ B C").toList = [("A B").toList, ("C").toList] := by decide

/-- `ArbitraryArgument` (completion.rs): free-form placeholder with a name
and a description, both informative only. -/
structure ArbitraryArgument where
  name : List Char
  description : List Char
deriving DecidableEq, Repr

/-- `Flag` (completion.rs): concrete argument with mandatory sub-arguments. -/
structure Flag where
  name : List Char
  arguments : List ArbitraryArgument
deriving DecidableEq, Repr

/-- `Argument` (completion.rs): either a concrete flag or a free-form
placeholder. -/
inductive Argument where
  | Flag (f : Flag)
  | ArbitraryArgument (a : ArbitraryArgument)
deriving DecidableEq, Repr

/-- `Command` (completion.rs): name, ordered arguments, ordered subcommands. -/
structure Command where
  name : List Char
  args : List Argument
  subcommands : List Command

/-- `CompletionResult` (completion.rs). -/
inductive CompletionResult where
  | None
  | Description (text : List Char)
  | PossibilityList (words : List (List Char))
deriving DecidableEq, Repr

/-- `command_names` (completion.rs): the names of a command list, in order. -/
def command_names (commands : List Command) : List (List Char) :=
  commands.map (·.name)

/-- `active_command` (completion.rs): for each component in order, scan the
top-level `commands` list and overwrite the result on every name match.
The loop never descends into `subcommands`. -/
def active_command (cmdline : List (List Char)) (commands : List Command) :
    Option Command :=
  cmdline.foldl
    (fun result component =>
      commands.foldl
        (fun r command => if component = command.name then some command else r)
        result)
    none

/-- Does this argument hold the `ArbitraryArgument` variant? -/
def Argument.isArbitrary : Argument → Bool
  | .ArbitraryArgument _ => true
  | .Flag _ => false

/-- The flag-collecting loop of `get_possible_completions`: push each flag
name, but return early (`none`) on the first arbitrary argument. -/
def collectFlagNames : List Argument → Option (List (List Char))
  | [] => some []
  | .ArbitraryArgument _ :: _ => none
  | .Flag f :: rest => (collectFlagNames rest).map (f.name :: ·)

/-- `get_possible_completions` (completion.rs): flag names then subcommand
names, unless some argument is arbitrary, in which case a fixed
`Description` is produced. -/
def get_possible_completions (cmd : Command) : CompletionResult :=
  match collectFlagNames cmd.args with
  | none => .Description ("Various artists").toList
  | some list => .PossibilityList (list ++ cmd.subcommands.map (·.name))

/-- The component/`to_complete` computation of `complete` (completion.rs,
lines 138-155).  When the text does not end in whitespace the last component
is popped via `components.pop().unwrap()`; `none` models the panic of that
`unwrap` when `split previous` is empty. -/
def popComponents (previous : List Char) :
    Option (List (List Char) × List Char) :=
  let components := split previous
  if ends_with_whitespace previous then some (components, [])
  else
    match components.getLast? with
    | none => none
    | some last => some (components.dropLast, last)

/-- `complete` (completion.rs).  `none` models a panic. -/
def complete (previous : List Char) (commands : List Command) :
    Option CompletionResult :=
  if previous = [] then
    let possible_commands := command_names commands
    if possible_commands = [] then some .None
    else some (.PossibilityList possible_commands)
  else
    match popComponents previous with
    | none => none
    | some (components, to_complete) =>
      match active_command components commands with
      | some cmd =>
        match get_possible_completions cmd with
        | .PossibilityList possibilities =>
          some (.PossibilityList
            (possibilities.filter (fun p => to_complete.isPrefixOf p)))
        | _ => some (.Description ("Various possible").toList)
      | none =>
        if components = [] then
          some (.PossibilityList
            ((command_names commands).filter (fun p => to_complete.isPrefixOf p)))
        else some (.PossibilityList [])

theorem complete_scenario_prefix :
    complete (("ca").toList)
      [⟨("print").toList, [], []⟩, ⟨("echo").toList, [], []⟩,
       ⟨("cat").toList, [.Flag ⟨("--help").toList, []⟩], []⟩,
       ⟨("exit").toList, [], []⟩]
      = some (.PossibilityList [("cat").toList]) := by rfl

theorem complete_scenario_flag :
    complete (("cat ").toList)
      [⟨("print").toList, [], []⟩, ⟨("echo").toList, [], []⟩,
       ⟨("cat").toList, [.Flag ⟨("--help").toList, []⟩], []⟩,
       ⟨("exit").toList, [], []⟩]
      = some (.PossibilityList [("--help").toList]) := by rfl

/-- C1: `complete` is claimed total for every input, in particular for
non-empty inputs that tokenize to zero words such as `"` or `'`.  In the
code, `components.pop().unwrap()` panics there (modelled by `none`),
for every grammar. -/
theorem complete_panics_on_lone_quote (commands : List Command) :
    complete (("\"").toList) commands = none ∧
    complete (("'").toList) commands = none := by
  exact ⟨rfl, rfl⟩

/-- C10: whenever `complete` returns a `Description`, its text is the fixed
constant "Various possible" — the placeholder's own description (and even
the inner constant "Various artists" of `get_possible_completions`) never
reaches the caller. -/
theorem complete_description_is_constant (previous : List Char)
    (commands : List Command) (d : List Char)
    (h : complete previous commands = some (.Description d)) :
    d = ("Various possible").toList := by
  unfold complete at h
  split at h
  · dsimp only at h
    split at h <;> simp_all
  · split at h
    · simp_all
    · rename_i comps
      split at h
      · split at h <;> simp_all
      · split at h <;> simp_all

theorem complete_description_is_constant_witness :
    ("Various possible").toList = ("Various possible").toList :=
  complete_description_is_constant (("x y").toList)
    [⟨("x").toList, [.ArbitraryArgument ⟨("n").toList, ("d").toList⟩], []⟩]
    (("Various possible").toList) rfl

theorem collectFlagNames_eq_none {args : List Argument}
    (h : args.any Argument.isArbitrary = true) :
    collectFlagNames args = none := by
  induction args with
  | nil => simp at h
  | cons a rest ih =>
    cases a with
    | ArbitraryArgument a => rfl
    | Flag f =>
      simp only [List.any_cons, Argument.isArbitrary, Bool.false_or] at h
      simp [collectFlagNames, ih h]

/-- C8: if the walk resolves a command whose argument list contains at least
one `ArbitraryArgument`, `complete` returns a `Description` (never a
`PossibilityList`), regardless of any concrete flags also declared, and no
prefix filtering is applied. -/
theorem complete_arbitrary_short_circuit (previous : List Char)
    (commands : List Command) (components : List (List Char))
    (to_complete : List Char) (cmd : Command)
    (hne : previous ≠ [])
    (hpop : popComponents previous = some (components, to_complete))
    (hact : active_command components commands = some cmd)
    (harb : cmd.args.any Argument.isArbitrary = true) :
    complete previous commands = some (.Description ("Various possible").toList) := by
  have hget : get_possible_completions cmd = .Description ("Various artists").toList := by
    unfold get_possible_completions
    rw [collectFlagNames_eq_none harb]
  unfold complete
  rw [if_neg hne, hpop]
  dsimp only
  rw [hact]
  dsimp only
  rw [hget]

theorem complete_arbitrary_short_circuit_witness :
    complete (("x ").toList)
      [⟨("x").toList,
        [.Flag ⟨("--v").toList, []⟩, .ArbitraryArgument ⟨("n").toList, ("d").toList⟩],
        [⟨("sub").toList, [], []⟩]⟩]
      = some (.Description ("Various possible").toList) :=
  complete_arbitrary_short_circuit (("x ").toList)
    [⟨("x").toList,
      [.Flag ⟨("--v").toList, []⟩, .ArbitraryArgument ⟨("n").toList, ("d").toList⟩],
      [⟨("sub").toList, [], []⟩]⟩]
    [("x").toList] [] _ (by decide) rfl rfl (by rfl)

/-- C3 counterexample: in the grammar where top-level command `a` has
subcommand `b` (which carries flag `--f`), the input `"a b "` does not
resolve to `b`'s position: completion offers `b`'s name (a completion of
`a`), not `b`'s flag `--f`. -/
theorem active_command_no_descent_counterexample :
    complete (("a b ").toList)
      [⟨("a").toList, [],
        [⟨("b").toList, [.Flag ⟨("--f").toList, []⟩], []⟩]⟩]
      = some (.PossibilityList [("b").toList]) ∧
    some (CompletionResult.PossibilityList [("b").toList])
      ≠ some (.PossibilityList [("--f").toList]) := by
  exact ⟨rfl, by decide⟩

theorem active_command_inner_mem (commands : List Command) (component : List Char)
    (r : Option Command) (cmd : Command)
    (h : commands.foldl
        (fun r command => if component = command.name then some command else r) r
      = some cmd) :
    r = some cmd ∨ cmd ∈ commands := by
  induction commands generalizing r with
  | nil => exact Or.inl h
  | cons c rest ih =>
    simp only [List.foldl_cons] at h
    rcases ih _ h with h' | h'
    · by_cases hc : component = c.name
      · rw [if_pos hc] at h'
        exact Or.inr (by simp [Option.some.injEq] at h'; simp [h'])
      · rw [if_neg hc] at h'
        exact Or.inl h'
    · exact Or.inr (List.mem_cons_of_mem _ h')

/-- C3 amended: the walk over the tokenized components matches each
component only against the names of the top-level command list
(`active_command` never descends into subcommands), the last match along
the walk winning; consequently every resolved command is a member of the
top-level list. -/
theorem active_command_mem (cmdline : List (List Char)) (commands : List Command)
    (cmd : Command) (h : active_command cmdline commands = some cmd) :
    cmd ∈ commands := by
  unfold active_command at h
  suffices H : ∀ (cl : List (List Char)) (r : Option Command),
      cl.foldl (fun result component =>
        commands.foldl
          (fun r command => if component = command.name then some command else r)
          result) r = some cmd → r = some cmd ∨ cmd ∈ commands by
    rcases H cmdline none h with h' | h'
    · exact absurd h' (by simp)
    · exact h'
  intro cl
  induction cl with
  | nil => exact fun r h => Or.inl h
  | cons comp rest ih =>
    intro r h
    simp only [List.foldl_cons] at h
    rcases ih _ h with h' | h'
    · exact active_command_inner_mem commands comp r cmd h'
    · exact Or.inr h'

theorem active_command_mem_witness :
    (⟨("a").toList, [], []⟩ : Command) ∈ [(⟨("a").toList, [], []⟩ : Command)] :=
  active_command_mem [("a").toList] [⟨("a").toList, [], []⟩] _ rfl

theorem step_preserves_quote_excl (s : EscapingState) (c : Char)
    (h : ¬(s.single_quote = true ∧ s.double_quote = true)) :
    ¬((s.step c).single_quote = true ∧ (s.step c).double_quote = true) := by
  obtain ⟨sq, dq, bs⟩ := s
  by_cases h1 : c = '"'
  · subst h1; revert h; cases sq <;> cases dq <;> cases bs <;> decide
  · by_cases h2 : c = '\''
    · subst h2; revert h; cases sq <;> cases dq <;> cases bs <;> decide
    · by_cases h3 : c = '\\'
      · subst h3; revert h; cases sq <;> cases dq <;> cases bs <;> decide
      · simp only [EscapingState.step, h1, h2, h3, if_false]
        cases bs <;> simp_all

/-- C9: in every `EscapingState` reachable from the initial all-false state
by `step` calls, `single_quote` and `double_quote` are never both true, and
every single `step` call preserves this mutual exclusion. -/
theorem quote_mutual_exclusion :
    (∀ (s : EscapingState) (c : Char),
        ¬(s.single_quote = true ∧ s.double_quote = true) →
        ¬((s.step c).single_quote = true ∧ (s.step c).double_quote = true)) ∧
    (∀ cs : List Char,
        ¬((EscapingState.process cs).single_quote = true ∧
          (EscapingState.process cs).double_quote = true)) := by
  refine ⟨step_preserves_quote_excl, ?_⟩
  have H : ∀ (cs : List Char) (s : EscapingState),
      ¬(s.single_quote = true ∧ s.double_quote = true) →
      ¬((cs.foldl EscapingState.step s).single_quote = true ∧
        (cs.foldl EscapingState.step s).double_quote = true) := by
    intro cs
    induction cs with
    | nil => exact fun s h => h
    | cons c rest ih =>
      exact fun s h => ih _ (step_preserves_quote_excl s c h)
  exact fun cs => H cs EscapingState.new (by decide)

theorem quote_mutual_exclusion_witness :
    ¬(((EscapingState.mk false true false).step '\'').single_quote = true ∧
      ((EscapingState.mk false true false).step '\'').double_quote = true) :=
  quote_mutual_exclusion.1 ⟨false, true, false⟩ '\'' (by decide)

/-- A character with no escaping role: not a quote and not a backslash. -/
def plainChar (c : Char) : Bool := !(c = '"' || c = '\'' || c = '\\')

theorem plainChar_spec {c : Char} (h : plainChar c = true) :
    c ≠ '"' ∧ c ≠ '\'' ∧ c ≠ '\\' := by
  simp [plainChar] at h
  tauto

/-- C2 counterexample: the backslash inside the single-quoted word of
`'a\b'` is not emitted — the produced word is `ab`, with no backslash. -/
theorem backslash_in_single_quotes_counterexample :
    split (("'a\\b'").toList) = [("ab").toList] ∧ '\\' ∉ ("ab").toList := by
  decide

theorem splitAux_sq_plain_step (bs : Bool) (c : Char) (hc : plainChar c = true)
    (act : List Char) (parts : List (List Char)) (rest : List Char) :
    splitAux ⟨true, false, bs⟩ act parts (c :: rest)
      = splitAux ⟨true, false, false⟩ (act ++ [c]) parts rest := by
  obtain ⟨h1, h2, h3⟩ := plainChar_spec hc
  have hcond : (c.isWhitespace
      && !(EscapingState.whitespace_escaped ⟨true, false, bs⟩)) = false := by
    simp [EscapingState.whitespace_escaped]
  have hstep : EscapingState.step ⟨true, false, bs⟩ c
      = (⟨true, false, false⟩ : EscapingState) := by
    cases bs <;> simp [EscapingState.step, h1, h2, h3]
  simp only [splitAux, hcond, Bool.false_eq_true, if_false, h1, h2, h3, if_neg,
    ite_false, hstep]

theorem splitAux_sq_run (a : List Char) (ha : ∀ c ∈ a, plainChar c = true) :
    ∀ (act : List Char) (parts : List (List Char)) (rest : List Char),
      splitAux ⟨true, false, false⟩ act parts (a ++ rest)
        = splitAux ⟨true, false, false⟩ (act ++ a) parts rest := by
  induction a with
  | nil => simp
  | cons c a' ih =>
    intro act parts rest
    have hc : plainChar c = true := ha c (List.mem_cons_self c a')
    have ha' : ∀ c ∈ a', plainChar c = true :=
      fun x hx => ha x (List.mem_cons_of_mem c hx)
    rw [List.cons_append, splitAux_sq_plain_step false c hc, ih ha']
    simp

theorem splitAux_sq_backslash (act : List Char) (parts : List (List Char))
    (rest : List Char) :
    splitAux ⟨true, false, false⟩ act parts ('\\' :: rest)
      = splitAux ⟨true, false, true⟩ act parts rest := rfl

theorem splitAux_sq_close (act : List Char) (parts : List (List Char)) :
    splitAux ⟨true, false, false⟩ act parts ['\'']
      = (if act = [] then parts else parts ++ [act]) := rfl

/-- C2 amended: `backslash_escaped` is `double_quote OR backslash` — the
single-quote flag plays no role — so a backslash inside a single-quoted
region is consumed and arms a one-character escape instead of being
emitted: for plain characters `a`, `b` with `b` non-empty,
`split ('⟨quote⟩' ++ a ++ '\' ++ b ++ '⟨quote⟩')` yields the single word
`a ++ b`, with the backslash dropped. -/
theorem backslash_dropped_in_single_quotes (a b : List Char)
    (ha : ∀ c ∈ a, plainChar c = true) (hb : ∀ c ∈ b, plainChar c = true)
    (hbne : b ≠ []) :
    (∀ s : EscapingState, s.backslash_escaped = (s.double_quote || s.backslash)) ∧
    split ('\'' :: (a ++ ('\\' :: (b ++ ['\''])))) = [a ++ b] := by
  refine ⟨fun s => rfl, ?_⟩
  cases b with
  | nil => exact absurd rfl hbne
  | cons b0 b' =>
    have hb0 : plainChar b0 = true := hb b0 (List.mem_cons_self b0 b')
    have hb' : ∀ c ∈ b', plainChar c = true :=
      fun x hx => hb x (List.mem_cons_of_mem b0 hx)
    have h0 : split ('\'' :: (a ++ ('\\' :: ((b0 :: b') ++ ['\'']))))
        = splitAux ⟨true, false, false⟩ [] []
            (a ++ ('\\' :: ((b0 :: b') ++ ['\'']))) := rfl
    rw [h0, splitAux_sq_run a ha, List.nil_append, splitAux_sq_backslash,
      List.cons_append, splitAux_sq_plain_step true b0 hb0,
      splitAux_sq_run b' hb', splitAux_sq_close]
    simp [List.append_assoc]

theorem backslash_dropped_in_single_quotes_witness :
    (∀ s : EscapingState, s.backslash_escaped = (s.double_quote || s.backslash)) ∧
    split ('\'' :: (['a'] ++ ('\\' :: (['b'] ++ ['\''])))) = [['a'] ++ ['b']] :=
  backslash_dropped_in_single_quotes ['a'] ['b']
    (by decide) (by decide) (by decide)

/-- The simple whitespace splitter `split` degenerates to when the input has
no quote and no backslash characters. -/
def wsSplitAux : List Char → List (List Char) → List Char → List (List Char)
  | act, parts, [] => if act = [] then parts else parts ++ [act]
  | act, parts, c :: rest =>
    if c.isWhitespace then
      wsSplitAux [] (if act = [] then parts else parts ++ [act]) rest
    else wsSplitAux (act ++ [c]) parts rest

/-- Rejoining a word list with single spaces, as in the spec's idempotence
property `split(join_with_single_space(split(s)))`. -/
def joinWithSingleSpace : List (List Char) → List Char
  | [] => []
  | [w] => w
  | w :: w2 :: ws => w ++ (' ' :: joinWithSingleSpace (w2 :: ws))

/-- C6 counterexample: `s = "a\ b"` contains no quote characters, yet
`split s = ["a b"]`, the single-space rejoin is `"a b"`, and splitting
again gives `["a", "b"]` — the word sequence is not reproduced. -/
theorem split_join_counterexample :
    (∀ c ∈ ("a\\ b").toList, c ≠ '"' ∧ c ≠ '\'') ∧
    split (joinWithSingleSpace (split (("a\\ b").toList)))
      ≠ split (("a\\ b").toList) := by
  decide

theorem splitAux_plain_eq_ws (cs : List Char)
    (hcs : ∀ c ∈ cs, plainChar c = true) :
    ∀ (act : List Char) (parts : List (List Char)),
      splitAux ⟨false, false, false⟩ act parts cs = wsSplitAux act parts cs := by
  induction cs with
  | nil => intro act parts; rfl
  | cons c rest ih =>
    intro act parts
    have hc : plainChar c = true := hcs c (List.mem_cons_self c rest)
    have hrest : ∀ x ∈ rest, plainChar x = true :=
      fun x hx => hcs x (List.mem_cons_of_mem c hx)
    obtain ⟨h1, h2, h3⟩ := plainChar_spec hc
    have hstep : EscapingState.step ⟨false, false, false⟩ c
        = (⟨false, false, false⟩ : EscapingState) := by
      simp [EscapingState.step, h1, h2, h3]
    by_cases hws : c.isWhitespace = true
    · simp only [splitAux, wsSplitAux, hws, EscapingState.whitespace_escaped,
        Bool.or_self, Bool.not_false, Bool.and_true, if_true, hstep]
      exact ih hrest [] _
    · simp only [splitAux, wsSplitAux, hws, Bool.false_and, Bool.false_eq_true,
        if_false, h1, h2, h3, ite_false, hstep]
      exact ih hrest (act ++ [c]) parts

/-- Shape of every word the whitespace splitter produces from plain input:
non-empty, whitespace-free, plain. -/
def goodWord (w : List Char) : Prop :=
  w ≠ [] ∧ ∀ c ∈ w, c.isWhitespace = false ∧ plainChar c = true

theorem wsSplitAux_words (cs : List Char)
    (hcs : ∀ c ∈ cs, plainChar c = true) :
    ∀ (act : List Char) (parts : List (List Char)),
      (∀ c ∈ act, c.isWhitespace = false ∧ plainChar c = true) →
      (∀ w ∈ parts, goodWord w) →
      ∀ w ∈ wsSplitAux act parts cs, goodWord w := by
  induction cs with
  | nil =>
    intro act parts hact hparts w hw
    by_cases hae : act = []
    · simpa [wsSplitAux, hae] using hparts w (by simpa [wsSplitAux, hae] using hw)
    · simp only [wsSplitAux, hae, if_false, ite_false] at hw
      rcases List.mem_append.1 hw with h | h
      · exact hparts w h
      · rw [List.mem_singleton.1 h]
        exact ⟨hae, hact⟩
  | cons c rest ih =>
    intro act parts hact hparts w hw
    have hc : plainChar c = true := hcs c (List.mem_cons_self c rest)
    have hrest : ∀ x ∈ rest, plainChar x = true :=
      fun x hx => hcs x (List.mem_cons_of_mem c hx)
    by_cases hws : c.isWhitespace = true
    · simp only [wsSplitAux, hws, if_true] at hw
      refine ih hrest [] _ (by simp) ?_ w hw
      intro v hv
      by_cases hae : act = []
      · exact hparts v (by simpa [hae] using hv)
      · simp only [hae, if_false, ite_false] at hv
        rcases List.mem_append.1 hv with h | h
        · exact hparts v h
        · rw [List.mem_singleton.1 h]
          exact ⟨hae, hact⟩
    · simp only [wsSplitAux, hws, Bool.false_eq_true, if_false, ite_false] at hw
      refine ih hrest (act ++ [c]) parts ?_ hparts w hw
      intro v hv
      rcases List.mem_append.1 hv with h | h
      · exact hact v h
      · rw [List.mem_singleton.1 h]
        exact ⟨by simpa using hws, hc⟩

theorem wsSplitAux_word_run (w : List Char)
    (hw : ∀ c ∈ w, c.isWhitespace = false) :
    ∀ (act : List Char) (parts : List (List Char)) (rest : List Char),
      wsSplitAux act parts (w ++ rest) = wsSplitAux (act ++ w) parts rest := by
  induction w with
  | nil => simp
  | cons c w' ih =>
    intro act parts rest
    have hc : c.isWhitespace = false := hw c (List.mem_cons_self c w')
    have hw' : ∀ x ∈ w', x.isWhitespace = false :=
      fun x hx => hw x (List.mem_cons_of_mem c hx)
    rw [List.cons_append]
    simp only [wsSplitAux, hc, Bool.false_eq_true, if_false, ite_false]
    rw [ih hw']
    simp

theorem wsSplit_join (ws : List (List Char))
    (hws : ∀ w ∈ ws, w ≠ [] ∧ ∀ c ∈ w, c.isWhitespace = false) :
    ∀ parts : List (List Char),
      wsSplitAux [] parts (joinWithSingleSpace ws) = parts ++ ws := by
  induction ws with
  | nil => intro parts; simp [joinWithSingleSpace, wsSplitAux]
  | cons w ws' ih =>
    intro parts
    have hw := hws w (List.mem_cons_self w ws')
    have hws' : ∀ v ∈ ws', v ≠ [] ∧ ∀ c ∈ v, c.isWhitespace = false :=
      fun v hv => hws v (List.mem_cons_of_mem w hv)
    cases ws' with
    | nil =>
      show wsSplitAux [] parts (joinWithSingleSpace [w]) = parts ++ [w]
      simp only [joinWithSingleSpace]
      rw [← List.append_nil w, wsSplitAux_word_run w hw.2]
      simp [wsSplitAux, hw.1]
    | cons w2 ws'' =>
      show wsSplitAux [] parts (joinWithSingleSpace (w :: w2 :: ws''))
          = parts ++ w :: w2 :: ws''
      simp only [joinWithSingleSpace]
      rw [wsSplitAux_word_run w hw.2]
      have hstep : wsSplitAux ([] ++ w) parts
          (' ' :: joinWithSingleSpace (w2 :: ws''))
          = wsSplitAux [] (parts ++ [w]) (joinWithSingleSpace (w2 :: ws'')) := by
        simp [wsSplitAux, hw.1]
      rw [hstep, ih hws']
      simp

theorem joinWithSingleSpace_chars (ws : List (List Char)) :
    ∀ c ∈ joinWithSingleSpace ws, (∃ w ∈ ws, c ∈ w) ∨ c = ' ' := by
  induction ws with
  | nil => simp [joinWithSingleSpace]
  | cons w ws' ih =>
    cases ws' with
    | nil =>
      intro c hc
      exact Or.inl ⟨w, List.mem_cons_self w [], by simpa [joinWithSingleSpace] using hc⟩
    | cons w2 ws'' =>
      intro c hc
      simp only [joinWithSingleSpace] at hc
      rcases List.mem_append.1 hc with h | h
      · exact Or.inl ⟨w, List.mem_cons_self _ _, h⟩
      · rcases List.mem_cons.1 h with h' | h'
        · exact Or.inr h'
        · rcases ih c h' with ⟨v, hv, hcv⟩ | h''
          · exact Or.inl ⟨v, List.mem_cons_of_mem w hv, hcv⟩
          · exact Or.inr h''

/-- C6 amended: for every string containing no quote characters AND no
backslash characters, tokenizing, rejoining with single spaces, and
tokenizing again reproduces the same word sequence.  (With backslashes
allowed the property fails, see the counterexample.) -/
theorem split_join_split (s : List Char) (hs : ∀ c ∈ s, plainChar c = true) :
    split (joinWithSingleSpace (split s)) = split s := by
  have h1 : split s = wsSplitAux [] [] s := splitAux_plain_eq_ws s hs [] []
  have hgood : ∀ w ∈ split s, goodWord w := by
    rw [h1]
    exact wsSplitAux_words s hs [] [] (by simp) (by simp)
  have hplainJoin : ∀ c ∈ joinWithSingleSpace (split s), plainChar c = true := by
    intro c hc
    rcases joinWithSingleSpace_chars _ c hc with ⟨w, hw, hcw⟩ | hsp
    · exact ((hgood w hw).2 c hcw).2
    · rw [hsp]; decide
  have h2 : split (joinWithSingleSpace (split s))
      = wsSplitAux [] [] (joinWithSingleSpace (split s)) :=
    splitAux_plain_eq_ws _ hplainJoin [] []
  rw [h2, wsSplit_join (split s)
    (fun w hw => ⟨(hgood w hw).1, fun c hc => ((hgood w hw).2 c hc).1⟩)]
  simp

theorem split_join_split_witness :
    split (joinWithSingleSpace (split (("a  b c").toList)))
      = split (("a  b c").toList) :=
  split_join_split (("a  b c").toList) (by decide)

/-- Decoded key events, as matched by `Prompt::read_commandline`
(prompt.rs).  `Char('\n')` and `Char('\t')` are carried by `char`;
`otherKey` covers every ignored event and `errKey` an I/O error from the
key source. -/
inductive Key where
  | char (c : Char)
  | arrowLeft
  | arrowRight
  | arrowUp
  | arrowDown
  | backspace
  | altBackspace
  | ctrlC
  | ctrlD
  | otherKey
  | errKey
deriving DecidableEq, Repr

/-- The mutable editing state of one `read_commandline` call: text left of
the cursor (`line`), text right of the cursor (`right_line`) and the
history browsing offset. -/
structure EditState where
  line : List Char
  right_line : List Char
  history_offset : Nat
deriving DecidableEq, Repr

/-- Rebuild of a command line from words as done by `Prompt::completion`
and the Alt+Backspace branch: every word followed by one space. -/
def joinWordsSp (ws : List (List Char)) : List Char :=
  (ws.map (fun w => w ++ [' '])).flatten

/-- Effect of `Prompt::completion` (prompt.rs lines 62-101) on `line`.
Only the single-possibility branch mutates the buffer; `none` propagates a
panic of `complete`. -/
def applyCompletion (commands : List Command) (line : List Char) :
    Option (List Char) :=
  match complete line commands with
  | none => none
  | some .None => some line
  | some (.Description _) => some line
  | some (.PossibilityList possible_words) =>
    if possible_words.length = 1 then
      let words := split line
      let words := if !ends_with_whitespace line then words.dropLast else words
      some (joinWordsSp (words ++ [possible_words.headD []]))
    else some line

/-- Result of processing one key inside the loop. -/
inductive StepRes where
  | cont (s : EditState)
  | enterKey
  | ctrlCHit
  | ctrlDHit
  | ioFail
  | panicked
deriving DecidableEq, Repr

/-- One iteration of the key loop of `Prompt::read_commandline`
(prompt.rs lines 152-246); screen writes are ignored as they do not touch
the state. -/
def stepKey (commands : List Command) (history : List (List Char))
    (s : EditState) (k : Key) : StepRes :=
  match k with
  | .char c =>
    if c = '\n' then .enterKey
    else if c = '\t' then
      match applyCompletion commands s.line with
      | none => .panicked
      | some l => .cont { s with line := l }
    else .cont { s with line := s.line ++ [c] }
  | .arrowLeft =>
    match s.line.getLast? with
    | some ch =>
      .cont { s with line := s.line.dropLast, right_line := ch :: s.right_line }
    | none => .cont s
  | .arrowRight =>
    match s.right_line with
    | ch :: rest => .cont { s with line := s.line ++ [ch], right_line := rest }
    | [] => .cont s
  | .arrowUp =>
    if s.history_offset < history.length then
      let off := s.history_offset + 1
      match history[history.length - off]? with
      | some l => .cont { line := l, right_line := [], history_offset := off }
      | none => .cont { s with history_offset := off }
    else .cont s
  | .arrowDown =>
    if s.history_offset = 1 then
      .cont { line := [], right_line := [], history_offset := 0 }
    else if s.history_offset > 1 then
      let off := s.history_offset - 1
      match history[history.length - off]? with
      | some l => .cont { line := l, right_line := [], history_offset := off }
      | none => .cont { s with history_offset := off }
    else .cont s
  | .backspace => .cont { s with line := s.line.dropLast }
  | .altBackspace =>
    let words := split s.line
    if words = [] then .cont s
    else .cont { s with line := joinWordsSp words.dropLast }
  | .ctrlC => .ctrlCHit
  | .ctrlD => .ctrlDHit
  | .otherKey => .cont s
  | .errKey => .ioFail

/-- Outcome of a full `read_commandline` call together with the history it
leaves behind. -/
inductive ReadResult where
  | ok (words : List (List Char)) (history : List (List Char))
  | interrupted (history : List (List Char))
  | endOfInput (history : List (List Char))
  | ioError (history : List (List Char))
  | panicked
deriving DecidableEq, Repr

/-- The submission epilogue (prompt.rs lines 248-252): concatenate the two
buffer halves, append the non-empty line to history, tokenize. -/
def submitLine (history : List (List Char)) (s : EditState) : ReadResult :=
  let line := s.line ++ s.right_line
  .ok (split line) (if line ≠ [] then history ++ [line] else history)

/-- The key loop.  An exhausted key list models the end of the input
stream: the `for` loop over `stdin.keys()` then falls through to the
submission epilogue. -/
def runKeys (commands : List Command) (history : List (List Char))
    (s : EditState) : List Key → ReadResult
  | [] => submitLine history s
  | k :: rest =>
    match stepKey commands history s k with
    | .cont s' => runKeys commands history s' rest
    | .enterKey => submitLine history s
    | .ctrlCHit => .interrupted history
    | .ctrlDHit => .endOfInput history
    | .ioFail => .ioError history
    | .panicked => .panicked

/-- `Prompt::read_commandline`: start with empty buffers and
`history_offset = 0`. -/
def read_commandline (commands : List Command) (history : List (List Char))
    (keys : List Key) : ReadResult :=
  runKeys commands history ⟨[], [], 0⟩ keys

/-- The in-progress editing state after a run of non-terminating keys. -/
def runKeysState (commands : List Command) (history : List (List Char))
    (s : EditState) : List Key → Option EditState
  | [] => some s
  | k :: rest =>
    match stepKey commands history s k with
    | .cont s' => runKeysState commands history s' rest
    | _ => none

/-- The character keys typing a given string. -/
def typeKeys (s : String) : List Key := s.toList.map Key.char

/-- C4 counterexample: with grammar `cat --help`, left buffer
`"cat" --h` (the first word quoted as typed) and right buffer `Z`, Tab
yields the single candidate `--help`; the rebuilt left buffer is
`cat --help ` — the earlier word lost its quote characters — instead of the
claimed `"cat" --help `. -/
theorem completion_rebuild_counterexample :
    stepKey [⟨("cat").toList, [.Flag ⟨("--help").toList, []⟩], []⟩] []
        ⟨("\"cat\" --h").toList, ['Z'], 0⟩ (.char '\t')
      = .cont ⟨("cat --help ").toList, ['Z'], 0⟩ ∧
    ("cat --help ").toList ≠ ("\"cat\" --help ").toList := by
  exact ⟨rfl, by decide⟩

/-- C4 amended: when Tab yields a `PossibilityList` with exactly one entry,
the editor re-tokenizes the left buffer, drops the in-progress word (when
the buffer does not end in whitespace), appends the candidate, and rebuilds
the left buffer as the tokenized words each followed by one space — earlier
words are thus normalized by tokenization (quote and backslash markers
stripped, whitespace collapsed), not kept verbatim; the right buffer and
the history offset are untouched. -/
theorem completion_single_rebuild (commands : List Command)
    (history : List (List Char)) (s : EditState) (w : List Char)
    (h : complete s.line commands = some (.PossibilityList [w])) :
    stepKey commands history s (.char '\t')
      = .cont { s with line := (joinWordsSp ((if !ends_with_whitespace s.line then (split s.line).dropLast else split s.line) ++ [w])) } := by
  have happ : applyCompletion commands s.line
      = some (joinWordsSp
          ((if !ends_with_whitespace s.line then (split s.line).dropLast
            else split s.line) ++ [w])) := by
    unfold applyCompletion
    rw [h]
    rfl
  simp only [stepKey, happ]
  rfl

theorem completion_single_rebuild_witness :
    stepKey [⟨("cat").toList, [.Flag ⟨("--help").toList, []⟩], []⟩] []
        ⟨("'cat' --h").toList, ['Z'], 0⟩ (.char '\t')
      = .cont ⟨joinWordsSp
            ((if !ends_with_whitespace (("'cat' --h").toList) then
                (split (("'cat' --h").toList)).dropLast
              else split (("'cat' --h").toList)) ++ [("--help").toList]),
          ['Z'], 0⟩ :=
  completion_single_rebuild
    [⟨("cat").toList, [.Flag ⟨("--help").toList, []⟩], []⟩] []
    ⟨("'cat' --h").toList, ['Z'], 0⟩ (("--help").toList) rfl

/-- C5 counterexample: after submitting `print a` and then `echo b`,
pressing Up, Up, Down in a third read leaves `echo b` — not the claimed
`print a` — as the left buffer (right buffer empty). -/
theorem history_up_up_down_counterexample :
    read_commandline [] [] (typeKeys ("print a") ++ [Key.char '\n'])
      = .ok [("print").toList, ("a").toList] [("print a").toList] ∧
    read_commandline [] [("print a").toList]
        (typeKeys ("echo b") ++ [Key.char '\n'])
      = .ok [("echo").toList, ("b").toList]
          [("print a").toList, ("echo b").toList] ∧
    runKeysState [] [("print a").toList, ("echo b").toList] ⟨[], [], 0⟩
        [.arrowUp, .arrowUp, .arrowDown]
      = some ⟨("echo b").toList, [], 1⟩ ∧
    ("echo b").toList ≠ ("print a").toList := by
  refine ⟨rfl, rfl, rfl, by decide⟩

/-- C5 amended: in the same scenario, Up twice selects `print a`, and the
following Down moves forward again to `echo b` (left buffer `echo b`,
right buffer empty); only a Down at offset 1 restores the empty line. -/
theorem history_navigation_scenario :
    read_commandline [] [] (typeKeys ("print a") ++ [Key.char '\n'])
      = .ok [("print").toList, ("a").toList] [("print a").toList] ∧
    read_commandline [] [("print a").toList]
        (typeKeys ("echo b") ++ [Key.char '\n'])
      = .ok [("echo").toList, ("b").toList]
          [("print a").toList, ("echo b").toList] ∧
    runKeysState [] [("print a").toList, ("echo b").toList] ⟨[], [], 0⟩
        [.arrowUp, .arrowUp]
      = some ⟨("print a").toList, [], 2⟩ ∧
    runKeysState [] [("print a").toList, ("echo b").toList] ⟨[], [], 0⟩
        [.arrowUp, .arrowUp, .arrowDown]
      = some ⟨("echo b").toList, [], 1⟩ := by
  refine ⟨rfl, rfl, rfl, rfl⟩

/-- C7: the claim says history changes only via an Enter submission of a
non-empty line.  Ctrl-C, Ctrl-D and the empty-line submission indeed leave
history unchanged — but when the key stream ends without Enter the loop
falls through to the submission epilogue and appends the buffer (here `a`)
to history with no Enter pressed, contradicting the function's own
documentation that an EOF of stdin returns an error. -/
theorem history_modified_without_enter :
    read_commandline [] [] [Key.char 'a']
      = .ok [[('a' : Char)]] [[('a' : Char)]] ∧
    read_commandline [] [] [Key.char 'a', Key.ctrlC] = .interrupted [] ∧
    read_commandline [] [] [Key.char 'a', Key.ctrlD] = .endOfInput [] ∧
    read_commandline [] [] [Key.char '\n'] = .ok [] [] ∧
    read_commandline [] [] (typeKeys ("a") ++ [Key.char '\n'])
      = .ok [[('a' : Char)]] [[('a' : Char)]] := by
  refine ⟨rfl, rfl, rfl, rfl, rfl⟩

end Shli
